import Mathlib

/-! Verification of the symmetrizer module of neuralxc
(src/neuralxc/symmetrizer/symmetrizer.py).

Modelling conventions.  numpy arrays are modelled flattened to two dimensions,
exactly as the code itself does first thing (`c = c.reshape(-1, c_shape[-1])`):
the field `shape` records the original numpy shape and `rows` the rows of the
resulting matrix (one row per combination of leading indices, each of length
equal to the trailing dimension).  Machine floats are idealised as real
numbers; complex entries are `ℂ`.  Python exceptions are modelled with
`Except String`, the string holding the exception's message (or the exception
class name for the built-in IndexError / KeyError / ValueError).  numpy basic
indexing of a single axis of size `s` accepts `i` with `-s ≤ i < s`, a negative
`i` denoting position `i + s`; this is `normIdx` below, and an out-of-bounds
index raises (`none`).
-/

set_option maxHeartbeats 1000000

/-- numpy single-axis index resolution: on an axis of size `size`,
index `i` resolves to `i` if `0 ≤ i < size`, to `i + size` if `-size ≤ i < 0`,
and is out of bounds otherwise. -/
def normIdx (size i : ℤ) : Option ℕ :=
  if 0 ≤ i ∧ i < size then some i.toNat
  else if 0 ≤ i + size ∧ i < 0 then some (i + size).toNat
  else none

/-- Python `range(a, b)` over integers. -/
def intRange (a b : ℤ) : List ℤ :=
  (List.range (b - a).toNat).map fun (k : ℕ) => a + (k : ℤ)

/-- Python `range(a, b)` over naturals. -/
def natRange (a b : ℕ) : List ℕ :=
  (List.range (b - a)).map fun k => a + k

/-- Flattened size of the angular part of the basis for one radial channel:
`sum(2*l+1 for l in range(n_l))`. -/
def sizePer (n_l : ℕ) : ℕ := ∑ l ∈ Finset.range n_l, (2 * l + 1)

/-- The `start` offsets built by the running-index loop
`for l in range(n_l): start[l] = idx; idx += 2*l+1` in
`BispectrumSymmetrizer._symmetrize_function`: `start[l] = sum(2*j+1 for j in range(l))`. -/
def startIdx (l : ℕ) : ℕ := ∑ j ∈ Finset.range l, (2 * j + 1)

/-- Flattened basis size for `(n_l, n)`: trailing dimension the coefficient
tensor is expected to have. -/
def basisSize (n_l n : ℕ) : ℕ := n * sizePer n_l

/-- A complex numpy array, flattened to 2D as by `c.reshape(-1, c_shape[-1])`. -/
structure PyArr where
  shape : List ℕ
  rows : List (List ℂ)

/-- A real numpy array, flattened to 2D the same way. -/
structure PyArrR where
  shape : List ℕ
  rows : List (List ℝ)

/-- The trailing dimension `c_shape[-1]`. -/
def PyArr.trailing (c : PyArr) : ℕ := c.shape.getLastD 0

/-- `np.linalg.norm` of a complex vector: square root of the sum of squared
magnitudes. -/
noncomputable def vnorm (v : List ℂ) : ℝ :=
  Real.sqrt (v.map fun z => Complex.normSq z).sum

/-- One row of `CasimirSymmetrizer._symmetrize_function`: the running-index
double loop `for n_ in range(n): for l in range(n_l): append norm(c[:, idx:idx+2l+1])**2;
idx += 2l+1`, applied to a single row of the flattened-to-2D array. -/
noncomputable def casimirRow (row : List ℂ) (n_l n : ℕ) : List ℝ :=
  ((List.range n).foldl (fun acc _ =>
      (List.range n_l).foldl (fun p l =>
        (p.1 ++ [vnorm ((row.drop p.2).take (2 * l + 1)) ^ 2], p.2 + (2 * l + 1)))
        acc)
    ([], 0)).1

/-- `CasimirSymmetrizer._symmetrize_function`.  The final
`casimirs.reshape(*c_shape[:-1], -1)` keeps the leading dimensions and lets
numpy infer the trailing one, which is the per-row output length `n * n_l`
(numpy can only infer it when the leading size is nonzero; the degenerate
zero-size case is not modelled). -/
noncomputable def CasimirSymmetrizer.symmetrize_function (c : PyArr) (n_l n : ℕ) : PyArrR :=
  { shape := c.shape.dropLast ++ [n * n_l]
    rows := c.rows.map fun row => casimirRow row n_l n }

/-- Standard Clebsch-Gordan selection rules for `⟨l1 m1; l2 m2 | l m⟩`. -/
def validCG (l1 m1 l2 m2 l m : ℤ) : Prop :=
  |l1 - l2| ≤ l ∧ l ≤ l1 + l2 ∧ |m1| ≤ l1 ∧ |m2| ≤ l2 ∧ |m| ≤ l ∧ m = m1 + m2

instance validCG.dec (l1 m1 l2 m2 l m : ℤ) : Decidable (validCG l1 m1 l2 m2 l m) := by
  unfold validCG; infer_instance

/-- Integer factorial, used only at nonnegative arguments. -/
noncomputable def zfact (k : ℤ) : ℝ := (Nat.factorial k.toNat : ℝ)

/-- Racah's closed form for the Clebsch-Gordan coefficient (the value the
selection rules admit); terms of the alternating sum whose factorial arguments
would be negative are dropped, as in the standard formula. -/
noncomputable def cgRacah (l1 m1 l2 m2 l m : ℤ) : ℝ :=
  Real.sqrt ((2 * (l : ℝ) + 1) * zfact (l + l1 - l2) * zfact (l - l1 + l2) *
      zfact (l1 + l2 - l) / zfact (l1 + l2 + l + 1)) *
  Real.sqrt (zfact (l + m) * zfact (l - m) * zfact (l1 - m1) * zfact (l1 + m1) *
      zfact (l2 - m2) * zfact (l2 + m2)) *
  ∑ k ∈ Finset.Icc 0 (l1 + l2 - l),
    if 0 ≤ l1 + l2 - l - k ∧ 0 ≤ l1 - m1 - k ∧ 0 ≤ l2 + m2 - k ∧
        0 ≤ l - l2 + m1 + k ∧ 0 ≤ l - l1 - m2 + k then
      (-1 : ℝ) ^ k.toNat /
        (zfact k * zfact (l1 + l2 - l - k) * zfact (l1 - m1 - k) * zfact (l2 + m2 - k) *
          zfact (l - l2 + m1 + k) * zfact (l - l1 - m2 + k))
    else 0

/-- Modelled from the spec: the scalar `N(CG(l1,m1,l2,m2,l,m).doit())` the source
obtains from the external sympy library is, per the spec, "the standard
quantum-mechanical angular-momentum coupling coefficient", which is "nonzero
only within strict selection-rule ranges".  Outside the selection rules it is
zero; inside, it is given by Racah's formula.  The theorems below use only the
vanishing outside the selection rules. -/
noncomputable def CGcoeff (l1 m1 l2 m2 l m : ℤ) : ℝ :=
  if validCG l1 m1 l2 m2 l m then cgRacah l1 m1 l2 m2 l m else 0

/-- Contents of the 6-dimensional coefficient array, by position. -/
abbrev CgFun := ℕ × ℕ × ℕ × ℕ × ℕ × ℕ → ℝ

/-- A single numpy element assignment. -/
def cgUpd (t : CgFun) (p : ℕ × ℕ × ℕ × ℕ × ℕ × ℕ) (v : ℝ) : CgFun :=
  fun q => if q = p then v else t q

/-- The table `cg_matrix` builds: the array contents together with the `n_l`
it was built for (the magnetic axes have size `2*(n_l-1)+1`). -/
structure CgTab where
  nl : ℕ
  entry : CgFun

/-- Loop tuples of `cg_matrix`, in source order `(l, l1, l2, m, m1, m2)`. -/
def cgIndices (n_l : ℤ) : List (ℤ × ℤ × ℤ × ℤ × ℤ × ℤ) :=
  (intRange 0 n_l).flatMap fun l =>
    (intRange 0 n_l).flatMap fun l1 =>
      (intRange 0 n_l).flatMap fun l2 =>
        (intRange (-n_l) (n_l + 1)).flatMap fun m =>
          (intRange (-n_l) (n_l + 1)).flatMap fun m1 =>
            (intRange (-n_l) (n_l + 1)).map fun m2 => (l, l1, l2, m, m1, m2)

/-- Whether the assignment `cgs[l1,m1,l2,m2,l,m] = ...` is in bounds: the
angular axes have size `n_l`, the magnetic axes size `2*(n_l-1)+1`. -/
def cgWriteOk (n_l : ℤ) (x : ℤ × ℤ × ℤ × ℤ × ℤ × ℤ) : Bool :=
  match x with
  | (l, l1, l2, m, m1, m2) =>
    (normIdx n_l l1).isSome && (normIdx (2 * (n_l - 1) + 1) m1).isSome &&
    (normIdx n_l l2).isSome && (normIdx (2 * (n_l - 1) + 1) m2).isSome &&
    (normIdx n_l l).isSome && (normIdx (2 * (n_l - 1) + 1) m).isSome

/-- The array position `(l1, m1, l2, m2, l, m)` resolves to (defined when
`cgWriteOk` holds). -/
def posOf (n_l : ℤ) (x : ℤ × ℤ × ℤ × ℤ × ℤ × ℤ) : ℕ × ℕ × ℕ × ℕ × ℕ × ℕ :=
  match x with
  | (l, l1, l2, m, m1, m2) =>
    ((normIdx n_l l1).getD 0, (normIdx (2 * (n_l - 1) + 1) m1).getD 0,
     (normIdx n_l l2).getD 0, (normIdx (2 * (n_l - 1) + 1) m2).getD 0,
     (normIdx n_l l).getD 0, (normIdx (2 * (n_l - 1) + 1) m).getD 0)

/-- The value assigned for a loop tuple: `N(CG(l1,m1,l2,m2,l,m).doit())`. -/
noncomputable def cgValueOf (x : ℤ × ℤ × ℤ × ℤ × ℤ × ℤ) : ℝ :=
  match x with
  | (l, l1, l2, m, m1, m2) => CGcoeff l1 m1 l2 m2 l m

/-- One loop iteration of `cg_matrix`: perform the element assignment, raising
IndexError when the index is out of bounds. -/
noncomputable def cgWrite (n_l : ℤ) (t : CgFun) (x : ℤ × ℤ × ℤ × ℤ × ℤ × ℤ) :
    Except String CgFun :=
  if cgWriteOk n_l x then Except.ok (cgUpd t (posOf n_l x) (cgValueOf x))
  else Except.error "IndexError"

/-- `cg_matrix(n_l)`: allocate `np.zeros([n_l, 2*lmax+1, ...])` (ValueError on a
negative dimension, i.e. whenever `n_l < 1`), then run the six nested loops,
`m`, `m1`, `m2` each over `range(-n_l, n_l+1)`. -/
noncomputable def cg_matrix (n_l : ℤ) : Except String CgTab :=
  if n_l < 0 ∨ 2 * (n_l - 1) + 1 < 0 then Except.error "ValueError"
  else ((cgIndices n_l).foldlM (cgWrite n_l) fun _ => 0).map fun f => ⟨n_l.toNat, f⟩

/-- Reading `cgs[l1, m1, l2, m2, l, m]` from a built table (the angular indices
the code uses are nonnegative; the magnetic ones resolve through numpy negative
indexing on axes of size `2*(T.nl-1)+1`).  The code only performs in-bounds
reads; out-of-bounds resolution is defaulted rather than raised here. -/
def cgsGet (T : CgTab) (l1 : ℕ) (m1 : ℤ) (l2 : ℕ) (m2 : ℤ) (l : ℕ) (m : ℤ) : ℝ :=
  T.entry (l1, (normIdx (2 * ((T.nl : ℤ) - 1) + 1) m1).getD 0,
           l2, (normIdx (2 * ((T.nl : ℤ) - 1) + 1) m2).getD 0,
           l, (normIdx (2 * ((T.nl : ℤ) - 1) + 1) m).getD 0)

/-- `np.linalg.norm(cgs[l1, :, l2, :, l, :])`: Frobenius norm of the full
magnetic block. -/
noncomputable def blockNorm (T : CgTab) (l1 l2 l : ℕ) : ℝ :=
  Real.sqrt (∑ j1 ∈ Finset.range (2 * T.nl - 1), ∑ j2 ∈ Finset.range (2 * T.nl - 1),
    ∑ j ∈ Finset.range (2 * T.nl - 1), T.entry (l1, j1, l2, j2, l, j) ^ 2)

/-- Element `c[:, n_, j]` of one row of the array reshaped to
`(len(c), n, w)` with `w` the per-radial-channel width. -/
def cVal (row : List ℂ) (w n_ j : ℕ) : ℂ := row.getD (n_ * w + j) 0

/-- The triple-coupling scalar `b` of `BispectrumSymmetrizer._symmetrize_function`
for one row and one `(n_, l1, l2, l)`:
`sum over m, m1, m2 of conj(c[n_, start[l]+m+l]) * c[n_, start[l1]+m1+l1] *
c[n_, start[l2]+m2+l2] * cgs[l1,m1,l2,m2,l,m]`. -/
noncomputable def bVal (T : CgTab) (w : ℕ) (row : List ℂ) (n_ l1 l2 l : ℕ) : ℂ :=
  ∑ m ∈ Finset.Icc (-(l : ℤ)) l, ∑ m1 ∈ Finset.Icc (-(l1 : ℤ)) l1,
    ∑ m2 ∈ Finset.Icc (-(l2 : ℤ)) l2,
      (starRingEnd ℂ) (cVal row w n_ (startIdx l + (m + l).toNat)) *
        cVal row w n_ (startIdx l1 + (m1 + l1).toNat) *
        cVal row w n_ (startIdx l2 + (m2 + l2).toNat) *
        ((cgsGet T l1 m1 l2 m2 l m : ℝ) : ℂ)

/-- The vector `b` over all rows (samples). -/
noncomputable def bVecOf (T : CgTab) (w : ℕ) (rows : List (List ℂ)) (t : ℕ × ℕ × ℕ × ℕ) :
    List ℂ :=
  rows.map fun row => bVal T w row t.1 t.2.1 t.2.2.1 t.2.2.2

/-- Loop tuples `(n_, l1, l2, l)` of the bispectrum loops, in source order:
`for n_ in range(n): for l1 in range(n_l): for l2 in range(n_l):
for l in range(abs(l2-l1), min(l1+l2+1, n_l))`. -/
def bTriples (n n_l : ℕ) : List (ℕ × ℕ × ℕ × ℕ) :=
  (List.range n).flatMap fun n_ =>
    (List.range n_l).flatMap fun l1 =>
      (List.range n_l).flatMap fun l2 =>
        (natRange ((l1 : ℤ) - l2).natAbs (min (l1 + l2 + 1) n_l)).map fun l =>
          (n_, l1, l2, l)

/-- numpy `.round(5)` at integer scale: round half to even. -/
noncomputable def roundHalfEven (q : ℝ) : ℤ :=
  if Int.fract q = 1 / 2 then 2 * round (q / 2) else round q

/-- `x.round(5)`: round to 5 decimal digits. -/
noncomputable def round5 (x : ℝ) : ℝ := (roundHalfEven (x * 100000) : ℝ) / 100000

open Classical in
/-- One iteration of the bispectrum triple loop: skip the triple when the CG
block has near-zero norm, raise `Exception('Not real')` when some sample's `b`
has imaginary part bigger than 1e-5 in absolute value, otherwise append
`b.real.round(5)`. -/
noncomputable def bStep (T : CgTab) (w : ℕ) (rows : List (List ℂ))
    (acc : List (List ℝ)) (t : ℕ × ℕ × ℕ × ℕ) : Except String (List (List ℝ)) :=
  if blockNorm T t.2.1 t.2.2.1 t.2.2.2 < 1e-15 then Except.ok acc
  else if ∃ z ∈ bVecOf T w rows t, 1e-5 < |z.im| then Except.error "Not real"
  else Except.ok (acc ++ [(bVecOf T w rows t).map fun z => round5 z.re])

/-- `np.array(bispectrum).T` for a list of per-triple sample vectors, given the
number of samples. -/
def transposeAt (m : List (List ℝ)) (k : ℕ) : List (List ℝ) :=
  (List.range k).map fun i => m.map fun v => v.getD i 0

/-- `BispectrumSymmetrizer._symmetrize_function`: compute the Casimir
invariants, reshape to separate the radial axis (ValueError if the trailing
dimension is not divisible by `n`), obtain the CG table (building it with
`cg_matrix(n_l)` when not supplied), run the triple loop, then transpose and
concatenate after the Casimir part along the trailing axis. -/
noncomputable def BispectrumSymmetrizer.symmetrize_function (c : PyArr) (n_l n : ℕ)
    (cgs : Option CgTab) : Except String PyArrR := do
  let casimirs := CasimirSymmetrizer.symmetrize_function c n_l n
  if c.trailing ≠ n * (c.trailing / n) then Except.error "ValueError" else
  let T ← match cgs with
    | some T => Except.ok T
    | none => cg_matrix (n_l : ℤ)
  let bvecs ← (bTriples n n_l).foldlM (bStep T (c.trailing / n) c.rows) []
  Except.ok ⟨c.shape.dropLast ++ [n * n_l + bvecs.length],
    List.zipWith (· ++ ·) casimirs.rows (transposeAt bvecs c.rows.length)⟩

/-- The Casimir reduction in the 4-argument shape the dispatcher calls
(`self._symmetrize_function(c, l, n, self._cgs)`); the extra `*args` are
ignored by the Casimir variant, and it raises nothing. -/
noncomputable def casimirF (c : PyArr) (n_l n : ℕ) (_cgs : Option CgTab) :
    Except String PyArrR :=
  Except.ok (CasimirSymmetrizer.symmetrize_function c n_l n)

/-- Python `dict` lookup on an association list. -/
def dictGet {α : Type} (d : List (String × α)) (k : String) : Option α :=
  (d.find? fun kv => kv.1 == k).map (·.2)

/-- One species of `Symmetrizer.get_symmetrized`:
`results_dict[spec] = self._symmetrize_function(dataset[spec], basis[spec]['l'],
basis[spec]['n'], self._cgs)`; `basis[spec]` raises KeyError when absent. -/
noncomputable def symDictEntry (f : PyArr → ℕ → ℕ → Option CgTab → Except String PyArrR)
    (basis : List (String × ℕ × ℕ)) (cgs : Option CgTab) (kv : String × PyArr) :
    Except String (String × PyArrR) :=
  match dictGet basis kv.1 with
  | none => Except.error "KeyError"
  | some ln => (f kv.2 ln.1 ln.2 cgs).map fun r => (kv.1, r)

/-- Processing of one species-to-tensor mapping. -/
noncomputable def symDict (f : PyArr → ℕ → ℕ → Option CgTab → Except String PyArrR)
    (basis : List (String × ℕ × ℕ)) (cgs : Option CgTab) (d : List (String × PyArr)) :
    Except String (List (String × PyArrR)) :=
  d.mapM (symDictEntry f basis cgs)

/-- The argument of `get_symmetrized`: a species-to-tensor mapping or a list of
such mappings. -/
inductive CIn where
  | one (d : List (String × PyArr))
  | many (ds : List (List (String × PyArr)))

/-- The result of `get_symmetrized`, mirroring the input's shape. -/
inductive COut where
  | one (d : List (String × PyArrR))
  | many (ds : List (List (String × PyArrR)))

/-- `Symmetrizer.get_symmetrized`, parameterised by the subclass's
`_symmetrize_function` and the held `self._cgs`: wrap a bare mapping into a
one-element list, process each mapping, and unwrap again. -/
noncomputable def Symmetrizer.get_symmetrized
    (f : PyArr → ℕ → ℕ → Option CgTab → Except String PyArrR)
    (basis : List (String × ℕ × ℕ)) (cgs : Option CgTab) : CIn → Except String COut
  | CIn.one d => (symDict f basis cgs d).map COut.one
  | CIn.many ds => (ds.mapM (symDict f basis cgs)).map COut.many

/-- The argument of `Symmetrizer.transform`: either a tuple `(X, y)` or a bare
`X`. -/
inductive TransIn (α : Type) where
  | tup (X : CIn) (y : α)
  | plain (X : CIn)

/-- The result of `Symmetrizer.transform`. -/
inductive TransOut (α : Type) where
  | tup (d : COut) (y : α)
  | plain (d : COut)

/-- `Symmetrizer.transform`: on a tuple return
`(self.get_symmetrized(X[0]), X[1])`, otherwise `self.get_symmetrized(X)`. -/
noncomputable def Symmetrizer.transform
    (f : PyArr → ℕ → ℕ → Option CgTab → Except String PyArrR)
    (basis : List (String × ℕ × ℕ)) (cgs : Option CgTab) {α : Type} :
    TransIn α → Except String (TransOut α)
  | TransIn.tup X y => (Symmetrizer.get_symmetrized f basis cgs X).map fun r => TransOut.tup r y
  | TransIn.plain X => (Symmetrizer.get_symmetrized f basis cgs X).map TransOut.plain

/-- The `symmetrize_instructions` dict, as far as the factory and the
constructors read it: the optional `symmetrizer_type` entry and the optional
`basis` entry (per species `l` and `n`). -/
structure SymIns where
  symmetrizer_type : Option String
  basis : Option (List (String × ℕ × ℕ))

/-- The two registered symmetrizer classes. -/
inductive SymClass where
  | casimir
  | bispectrum
deriving DecidableEq

/-- Python `str.lower()` (the names involved are ASCII, where `Char.toLower`
agrees with Python). -/
def pyLower (s : String) : String := String.mk (s.data.map Char.toLower)

/-- The lookup `symmetrizer_dict[name]` with
`symmetrizer_dict = dict(casimir=CasimirSymmetrizer, bispectrum=BispectrumSymmetrizer)`. -/
def selectClass (s : String) : Option SymClass :=
  if s = "casimir" then some SymClass.casimir
  else if s = "bispectrum" then some SymClass.bispectrum
  else none

/-- A constructed symmetrizer instance. -/
inductive SymInstance where
  | casimir (attrs : SymIns)
  | bispectrum (attrs : SymIns) (cgs : CgTab)

/-- `BispectrumSymmetrizer.__init__`: read `attrs['basis']` (KeyError when
missing), take the maximum `l` over the species starting from 0, and build the
CG table with `cg_matrix`. -/
noncomputable def bispectrumInit (ins : SymIns) : Except String SymInstance :=
  match ins.basis with
  | none => Except.error "KeyError"
  | some b =>
      (cg_matrix ((b.foldl (fun acc kv => max acc kv.2.1) 0 : ℕ) : ℤ)).map
        (SymInstance.bispectrum ins)

/-- `symmetrizer_factory`: raise when the `symmetrizer_type` key is missing,
look the lowercased name up in `symmetrizer_dict` (KeyError when unknown), and
call the selected class's constructor. -/
noncomputable def symmetrizer_factory (ins : SymIns) : Except String SymInstance :=
  match ins.symmetrizer_type with
  | none => Except.error "symmetrize_instructions must contain symmetrizer_type key"
  | some s =>
    match selectClass (pyLower s) with
    | none => Except.error "KeyError"
    | some SymClass.casimir => Except.ok (SymInstance.casimir ins)
    | some SymClass.bispectrum => bispectrumInit ins

/-! Theorems.  First the Casimir reducer. -/

theorem vnorm_nonneg (v : List ℂ) : 0 ≤ vnorm v := Real.sqrt_nonneg _

theorem vnorm_sq (v : List ℂ) :
    vnorm v ^ 2 = (v.map fun z => Complex.normSq z).sum := by
  apply Real.sq_sqrt
  apply List.sum_nonneg
  intro x hx
  rcases List.mem_map.1 hx with ⟨z, _, rfl⟩
  exact Complex.normSq_nonneg z

theorem casimir_inner_fold (row : List ℂ) (n_l : ℕ) (acc : List ℝ × ℕ) :
    (List.range n_l).foldl (fun p l =>
        (p.1 ++ [vnorm ((row.drop p.2).take (2 * l + 1)) ^ 2], p.2 + (2 * l + 1))) acc =
      (acc.1 ++ (List.range n_l).map (fun l =>
        vnorm ((row.drop (acc.2 + startIdx l)).take (2 * l + 1)) ^ 2),
       acc.2 + sizePer n_l) := by
  induction n_l with
  | zero => simp [sizePer]
  | succ k ih =>
    rw [List.range_succ, List.foldl_append, ih]
    simp only [List.foldl_cons, List.foldl_nil, List.map_append, List.map_cons, List.map_nil,
      List.append_assoc, sizePer, startIdx, Finset.sum_range_succ, Prod.mk.injEq]
    exact ⟨trivial, by omega⟩

theorem casimir_outer_fold (row : List ℂ) (n_l n : ℕ) (acc : List ℝ × ℕ) :
    (List.range n).foldl (fun a _ =>
        (List.range n_l).foldl (fun p l =>
          (p.1 ++ [vnorm ((row.drop p.2).take (2 * l + 1)) ^ 2], p.2 + (2 * l + 1))) a) acc =
      (acc.1 ++ (List.range n).flatMap (fun n_ =>
        (List.range n_l).map fun l =>
          vnorm ((row.drop (acc.2 + n_ * sizePer n_l + startIdx l)).take (2 * l + 1)) ^ 2),
       acc.2 + n * sizePer n_l) := by
  induction n generalizing acc with
  | zero => simp
  | succ k ih =>
    rw [List.range_succ, List.foldl_append, ih, List.foldl_cons, List.foldl_nil,
      casimir_inner_fold]
    simp only [List.flatMap_append, List.flatMap_cons, List.flatMap_nil, List.append_assoc,
      List.append_nil, Prod.mk.injEq]
    refine ⟨trivial, ?_⟩
    ring

theorem casimirRow_eq (row : List ℂ) (n_l n : ℕ) :
    casimirRow row n_l n = (List.range n).flatMap fun n_ =>
      (List.range n_l).map fun l =>
        vnorm ((row.drop (n_ * sizePer n_l + startIdx l)).take (2 * l + 1)) ^ 2 := by
  unfold casimirRow
  rw [casimir_outer_fold]
  simp

theorem casimirRow_length (row : List ℂ) (n_l n : ℕ) :
    (casimirRow row n_l n).length = n * n_l := by
  rw [casimirRow_eq]
  simp [List.length_flatMap, Function.comp_def, List.map_const', mul_comm]

theorem vnorm_two_sq : vnorm [(2 : ℂ)] ^ 2 = 4 := by
  rw [vnorm_sq]
  norm_num [Complex.normSq_apply]

theorem vnorm_nil : vnorm ([] : List ℂ) = 0 := by
  simp [vnorm]

theorem casimirRow_two : casimirRow [(2 : ℂ)] 1 1 = [4] := by
  rw [casimirRow_eq]
  norm_num [startIdx, List.range_succ]
  exact vnorm_two_sq

theorem casimirRow_two_pad : casimirRow [(2 : ℂ)] 1 2 = [4, 0] := by
  rw [casimirRow_eq]
  norm_num [startIdx, List.range_succ, sizePer]
  exact ⟨vnorm_two_sq, vnorm_nil⟩

/-- C3: for an input whose trailing dimension equals the flattened basis size
for `(L, N)` the Casimir reducer's output has trailing dimension exactly `N·L`,
ordered with `n` as the outer loop and `l` as the inner loop, with all leading
dimensions preserved; in particular `basisSize 2 3 = 12` and the output
trailing dimension for `L=2, N=3` is `3·2 = 6`. -/
theorem casimir_shape_law (c : PyArr) (n_l n : ℕ)
    (_htrail : c.trailing = basisSize n_l n)
    (_hrows : ∀ r ∈ c.rows, r.length = basisSize n_l n) :
    (CasimirSymmetrizer.symmetrize_function c n_l n).shape = c.shape.dropLast ++ [n * n_l] ∧
    (CasimirSymmetrizer.symmetrize_function c n_l n).rows.length = c.rows.length ∧
    (∀ r ∈ c.rows,
      casimirRow r n_l n = (List.range n).flatMap (fun n_ =>
        (List.range n_l).map fun l =>
          vnorm ((r.drop (n_ * sizePer n_l + startIdx l)).take (2 * l + 1)) ^ 2) ∧
      (casimirRow r n_l n).length = n * n_l) ∧
    basisSize 2 3 = 12 := by
  refine ⟨rfl, by simp [CasimirSymmetrizer.symmetrize_function], ?_, by decide⟩
  intro r _
  exact ⟨casimirRow_eq r n_l n, casimirRow_length r n_l n⟩

theorem casimir_shape_law_witness :
    (PyArr.trailing ⟨[1, 12], [List.replicate 12 0]⟩ = basisSize 2 3 ∧
      ∀ r ∈ (PyArr.mk [1, 12] [List.replicate 12 0]).rows, r.length = basisSize 2 3) ∧
    (CasimirSymmetrizer.symmetrize_function ⟨[1, 12], [List.replicate 12 0]⟩ 2 3).shape =
      [1, 6] := by
  have h1 : PyArr.trailing ⟨[1, 12], [List.replicate 12 0]⟩ = basisSize 2 3 := by decide
  have h2 : ∀ r ∈ (PyArr.mk [1, 12] [List.replicate 12 0]).rows, r.length = basisSize 2 3 := by
    intro r hr
    rw [List.mem_singleton] at hr
    subst hr
    decide
  have h := casimir_shape_law ⟨[1, 12], [List.replicate 12 0]⟩ 2 3 h1 h2
  exact ⟨⟨h1, h2⟩, by simpa using h.1⟩

/-- C5 counterexample: the Casimir reducer performs no trailing-dimension
validation.  With `L=1, N=2` (basis size 2) and a trailing dimension of 1 it
raises nothing and silently returns a value: the second slice is empty,
contributing `norm([])**2 = 0`. -/
theorem casimir_no_shape_error_cex :
    PyArr.trailing ⟨[1, 1], [[(2 : ℂ)]]⟩ ≠ basisSize 1 2 ∧
    CasimirSymmetrizer.symmetrize_function ⟨[1, 1], [[(2 : ℂ)]]⟩ 1 2 =
      { shape := [1, 2], rows := [[4, 0]] } := by
  refine ⟨by decide, ?_⟩
  simp [CasimirSymmetrizer.symmetrize_function, casimirRow_two_pad]

/-- C5 (amended): the Casimir reducer validates nothing: on every input,
whatever its trailing dimension, it returns the reduction of the clipped
slices (out-of-range slices are empty) with output trailing size `n * n_l`. -/
theorem casimir_total_no_validation (c : PyArr) (n_l n : ℕ) :
    CasimirSymmetrizer.symmetrize_function c n_l n =
      { shape := c.shape.dropLast ++ [n * n_l]
        rows := c.rows.map fun row => casimirRow row n_l n } := rfl

/-- C9: every entry of the Casimir output is a real, non-negative number — the
sum of the squared magnitudes of its `(n, l)` block — also when the input
coefficients are complex. -/
theorem casimir_entries_nonneg (row : List ℂ) (n_l n : ℕ) :
    ∀ x ∈ casimirRow row n_l n, 0 ≤ x ∧ ∃ n_ l, n_ < n ∧ l < n_l ∧
      x = (((row.drop (n_ * sizePer n_l + startIdx l)).take (2 * l + 1)).map fun z =>
        Complex.normSq z).sum := by
  intro x hx
  rw [casimirRow_eq] at hx
  rcases List.mem_flatMap.1 hx with ⟨n_, hn_, hx2⟩
  rcases List.mem_map.1 hx2 with ⟨l, hl, rfl⟩
  rw [List.mem_range] at hn_
  rw [List.mem_range] at hl
  exact ⟨sq_nonneg _, n_, l, hn_, hl, vnorm_sq _⟩

theorem casimir_entries_nonneg_witness :
    vnorm [Complex.I] ^ 2 ∈ casimirRow [Complex.I] 1 1 ∧
    (0 ≤ vnorm [Complex.I] ^ 2 ∧ ∃ n_ l, n_ < 1 ∧ l < 1 ∧
      vnorm [Complex.I] ^ 2 = ((([Complex.I].drop (n_ * sizePer 1 + startIdx l)).take
        (2 * l + 1)).map fun z => Complex.normSq z).sum) :=
  have hmem : vnorm [Complex.I] ^ 2 ∈ casimirRow [Complex.I] 1 1 := by
    rw [casimirRow_eq]
    refine List.mem_flatMap.2 ⟨0, by simp, List.mem_map.2 ⟨0, by simp, ?_⟩⟩
    norm_num [startIdx]
  ⟨hmem, casimir_entries_nonneg [Complex.I] 1 1 _ hmem⟩

/-! The Clebsch-Gordan table. -/

theorem mem_intRange {a b x : ℤ} : x ∈ intRange a b ↔ a ≤ x ∧ x < b := by
  simp only [intRange, List.mem_map, List.mem_range]
  constructor
  · rintro ⟨k, hk, rfl⟩
    omega
  · rintro ⟨h1, h2⟩
    exact ⟨(x - a).toNat, by omega, by omega⟩

theorem normIdx_isSome_iff {s i : ℤ} : (normIdx s i).isSome ↔ -s ≤ i ∧ i < s := by
  unfold normIdx
  split_ifs <;> simp <;> omega

theorem normIdx_of_nonneg {s i : ℤ} (h1 : 0 ≤ i) (h2 : i < s) :
    normIdx s i = some i.toNat := by
  unfold normIdx
  rw [if_pos ⟨h1, h2⟩]

theorem normIdx_collision {s a b : ℤ} {k : ℕ} (ha : normIdx s a = some k)
    (hb : normIdx s b = some k) : a = b ∨ a = b + s ∨ b = a + s := by
  unfold normIdx at ha hb
  split_ifs at ha hb with h1 h2 h3 h4 <;>
    simp only [Option.some.injEq] at ha hb <;> omega

theorem mem_cgIndices {n_l l l1 l2 m m1 m2 : ℤ} :
    (l, l1, l2, m, m1, m2) ∈ cgIndices n_l ↔
      (0 ≤ l ∧ l < n_l) ∧ (0 ≤ l1 ∧ l1 < n_l) ∧ (0 ≤ l2 ∧ l2 < n_l) ∧
      (-n_l ≤ m ∧ m < n_l + 1) ∧ (-n_l ≤ m1 ∧ m1 < n_l + 1) ∧
      (-n_l ≤ m2 ∧ m2 < n_l + 1) := by
  simp only [cgIndices, List.mem_flatMap, List.mem_map, mem_intRange, Prod.mk.injEq]
  constructor
  · rintro ⟨a, ha, b, hb, c, hc, d, hd, e, he, f, hf, rfl, rfl, rfl, rfl, rfl, rfl⟩
    exact ⟨ha, hb, hc, hd, he, hf⟩
  · rintro ⟨hl, hl1, hl2, hm, hm1, hm2⟩
    exact ⟨l, hl, l1, hl1, l2, hl2, m, hm, m1, hm1, m2, hm2, rfl, rfl, rfl, rfl, rfl, rfl⟩

theorem cgfold_err {n_l : ℤ} {l : List (ℤ × ℤ × ℤ × ℤ × ℤ × ℤ)}
    (h : ∃ x ∈ l, cgWriteOk n_l x = false) :
    ∀ t, l.foldlM (cgWrite n_l) t = Except.error "IndexError" := by
  induction l with
  | nil => simp at h
  | cons a l ih =>
    intro t
    rw [List.foldlM_cons]
    by_cases ha : cgWriteOk n_l a
    · rw [cgWrite, if_pos ha]
      have : ∃ x ∈ l, cgWriteOk n_l x = false := by
        rcases h with ⟨x, hx, hxf⟩
        rcases List.mem_cons.1 hx with rfl | hx'
        · rw [ha] at hxf; cases hxf
        · exact ⟨x, hx', hxf⟩
      exact ih this _
    · rw [cgWrite, if_neg ha]
      rfl

theorem cgfold_ok {n_l : ℤ} {l : List (ℤ × ℤ × ℤ × ℤ × ℤ × ℤ)}
    (h : ∀ x ∈ l, cgWriteOk n_l x = true) :
    ∀ t, l.foldlM (cgWrite n_l) t =
      Except.ok (l.foldl (fun s x => cgUpd s (posOf n_l x) (cgValueOf x)) t) := by
  induction l with
  | nil => intro t; rfl
  | cons a l ih =>
    intro t
    rw [List.foldlM_cons, cgWrite, if_pos (h a (List.mem_cons_self a l))]
    rw [show ∀ (b : CgFun) (g : CgFun → Except String CgFun),
      (Except.ok b >>= g) = g b from fun _ _ => rfl]
    rw [ih fun x hx => h x (List.mem_cons_of_mem a hx), List.foldl_cons]

theorem foldl_invariant {σ α : Type} (P : σ → Prop) (u : σ → α → σ) :
    ∀ (l : List α) (t : σ), P t → (∀ s x, x ∈ l → P s → P (u s x)) →
      P (l.foldl u t) := by
  intro l
  induction l with
  | nil => intro t ht _; exact ht
  | cons a l ih =>
    intro t ht hstep
    rw [List.foldl_cons]
    exact ih _ (hstep t a (List.mem_cons_self a l) ht)
      fun s x hx hs => hstep s x (List.mem_cons_of_mem a hx) hs

theorem CGcoeff_of_not_valid {l1 m1 l2 m2 l m : ℤ} (h : ¬ validCG l1 m1 l2 m2 l m) :
    CGcoeff l1 m1 l2 m2 l m = 0 := by
  rw [CGcoeff, if_neg h]

theorem opt_eq_some_getD {o : Option ℕ} (h : o.isSome) : o = some (o.getD 0) := by
  cases o with
  | none => simp at h
  | some a => rfl

/-- C8: for every integer L < 1 building the CG table fails: `np.zeros` is
asked for the negative axis dimension `2*(L-1)+1` (ValueError) before any loop
runs. -/
theorem cg_matrix_L_lt_one_fails (L : ℤ) (h : L < 1) :
    cg_matrix L = Except.error "ValueError" := by
  unfold cg_matrix
  rw [if_pos (Or.inr (by omega))]

theorem cg_matrix_L_lt_one_fails_witness :
    (0 : ℤ) < 1 ∧ cg_matrix 0 = Except.error "ValueError" :=
  ⟨by decide, cg_matrix_L_lt_one_fails 0 (by decide)⟩

theorem cg_matrix_one_err : cg_matrix 1 = Except.error "IndexError" := by
  unfold cg_matrix
  rw [if_neg (by decide), cgfold_err ⟨(0, 0, 0, -1, -1, 1), by decide, by decide⟩]
  rfl

theorem cg_matrix_ok_of_two_le {L : ℤ} (hL : 2 ≤ L) :
    cg_matrix L = Except.ok ⟨L.toNat,
      (cgIndices L).foldl (fun s x => cgUpd s (posOf L x) (cgValueOf x)) fun _ => 0⟩ := by
  have hall : ∀ x ∈ cgIndices L, cgWriteOk L x = true := by
    intro x hx
    obtain ⟨l, l1, l2, m, m1, m2⟩ := x
    rw [mem_cgIndices] at hx
    simp only [cgWriteOk, Bool.and_eq_true, normIdx_isSome_iff]
    omega
  unfold cg_matrix
  rw [if_neg (by omega), cgfold_ok hall]
  rfl

/-- C2 counterexample: at L = 1 no table is produced at all, so no produced
table satisfies the selection rules: the magnetic loops of `cg_matrix(1)` run
over `range(-1, 2)` while the magnetic axes have size `2*(1-1)+1 = 1`, and the
assignment at magnetic index 1 is out of bounds. -/
theorem cg_matrix_one_fails : cg_matrix 1 = Except.error "IndexError" :=
  cg_matrix_one_err

/-- C2 (amended): for every L ≥ 2 the build succeeds and every entry of the
produced table whose (l1,m1,l2,m2,l,m) lies outside the physically valid
selection-rule range is zero; in particular the (l1,0,l2,0,0,0) entry is zero
unless l1 = l2.  (For L = 1 the build itself fails with an IndexError, see the
counterexample.) -/
theorem cg_matrix_selection_rules (L : ℤ) (hL : 2 ≤ L) :
    ∃ T : CgTab, cg_matrix L = Except.ok T ∧
      (∀ l1 m1 l2 m2 l m : ℤ,
        0 ≤ l1 → l1 < L → 0 ≤ l2 → l2 < L → 0 ≤ l → l < L →
        |m1| ≤ L - 1 → |m2| ≤ L - 1 → |m| ≤ L - 1 →
        ¬ validCG l1 m1 l2 m2 l m →
        cgsGet T l1.toNat m1 l2.toNat m2 l.toNat m = 0) ∧
      (∀ l1 l2 : ℤ, 0 ≤ l1 → l1 < L → 0 ≤ l2 → l2 < L → l1 ≠ l2 →
        cgsGet T l1.toNat 0 l2.toNat 0 0 0 = 0) := by
  have hcast : ((L.toNat : ℤ)) = L := Int.toNat_of_nonneg (by omega)
  have inv := foldl_invariant
    (fun s : CgFun => ∀ l1 m1 l2 m2 l m : ℤ,
      0 ≤ l1 → l1 < L → 0 ≤ l2 → l2 < L → 0 ≤ l → l < L →
      |m1| ≤ L - 1 → |m2| ≤ L - 1 → |m| ≤ L - 1 →
      ¬ validCG l1 m1 l2 m2 l m →
      s (l1.toNat, (normIdx (2 * (L - 1) + 1) m1).getD 0,
         l2.toNat, (normIdx (2 * (L - 1) + 1) m2).getD 0,
         l.toNat, (normIdx (2 * (L - 1) + 1) m).getD 0) = 0)
    (fun s x => cgUpd s (posOf L x) (cgValueOf x))
    (cgIndices L) (fun _ => 0)
    (fun _ _ _ _ _ _ _ _ _ _ _ _ _ _ _ _ => rfl)
    (by
      intro s x hx hs
      obtain ⟨xl, xl1, xl2, xm, xm1, xm2⟩ := x
      rw [mem_cgIndices] at hx
      obtain ⟨hxl, hxl1, hxl2, hxm, hxm1, hxm2⟩ := hx
      intro l1 m1 l2 m2 l m hb1 hb2 hb3 hb4 hb5 hb6 hm1b hm2b hmb hnv
      rw [abs_le] at hm1b hm2b hmb
      simp only [cgUpd]
      split_ifs with heq
      · -- the write lands on the position being read
        simp only [posOf, Prod.mk.injEq] at heq
        obtain ⟨e1, e2, e3, e4, e5, e6⟩ := heq
        rw [normIdx_of_nonneg hxl1.1 hxl1.2] at e1
        rw [normIdx_of_nonneg hxl2.1 hxl2.2] at e3
        rw [normIdx_of_nonneg hxl.1 hxl.2] at e5
        simp only [Option.getD_some] at e1 e3 e5
        have E1 : xl1 = l1 := by omega
        have E3 : xl2 = l2 := by omega
        have E5 : xl = l := by omega
        obtain ⟨k1, hk1⟩ := Option.isSome_iff_exists.1
          (normIdx_isSome_iff.2 (by omega : -(2 * (L - 1) + 1) ≤ m1 ∧ m1 < 2 * (L - 1) + 1))
        obtain ⟨k1x, hk1x⟩ := Option.isSome_iff_exists.1
          (normIdx_isSome_iff.2 (by omega : -(2 * (L - 1) + 1) ≤ xm1 ∧ xm1 < 2 * (L - 1) + 1))
        obtain ⟨k2, hk2⟩ := Option.isSome_iff_exists.1
          (normIdx_isSome_iff.2 (by omega : -(2 * (L - 1) + 1) ≤ m2 ∧ m2 < 2 * (L - 1) + 1))
        obtain ⟨k2x, hk2x⟩ := Option.isSome_iff_exists.1
          (normIdx_isSome_iff.2 (by omega : -(2 * (L - 1) + 1) ≤ xm2 ∧ xm2 < 2 * (L - 1) + 1))
        obtain ⟨k3, hk3⟩ := Option.isSome_iff_exists.1
          (normIdx_isSome_iff.2 (by omega : -(2 * (L - 1) + 1) ≤ m ∧ m < 2 * (L - 1) + 1))
        obtain ⟨k3x, hk3x⟩ := Option.isSome_iff_exists.1
          (normIdx_isSome_iff.2 (by omega : -(2 * (L - 1) + 1) ≤ xm ∧ xm < 2 * (L - 1) + 1))
        rw [hk1, hk1x, Option.getD_some, Option.getD_some] at e2
        rw [hk2, hk2x, Option.getD_some, Option.getD_some] at e4
        rw [hk3, hk3x, Option.getD_some, Option.getD_some] at e6
        subst e2 e4 e6
        have d1 := normIdx_collision hk1 hk1x
        have d2 := normIdx_collision hk2 hk2x
        have d3 := normIdx_collision hk3 hk3x
        simp only [cgValueOf]
        apply CGcoeff_of_not_valid
        intro hv
        obtain ⟨hv1, hv2, hv3, hv4, hv5, hv6⟩ := hv
        rw [abs_le] at hv3 hv4 hv5
        have g1 : xm1 = m1 := by rcases d1 with h | h | h <;> omega
        have g2 : xm2 = m2 := by rcases d2 with h | h | h <;> omega
        have g3 : xm = m := by rcases d3 with h | h | h <;> omega
        subst E1 E3 E5 g1 g2 g3
        exact hnv ⟨hv1, hv2, abs_le.2 hv3, abs_le.2 hv4, abs_le.2 hv5, hv6⟩
      · exact hs l1 m1 l2 m2 l m hb1 hb2 hb3 hb4 hb5 hb6
          (abs_le.2 hm1b) (abs_le.2 hm2b) (abs_le.2 hmb) hnv)
  refine ⟨_, cg_matrix_ok_of_two_le hL, ?_, ?_⟩
  · intro l1 m1 l2 m2 l m hb1 hb2 hb3 hb4 hb5 hb6 hm1b hm2b hmb hnv
    simp only [cgsGet, hcast]
    exact inv l1 m1 l2 m2 l m hb1 hb2 hb3 hb4 hb5 hb6 hm1b hm2b hmb hnv
  · intro l1 l2 hb1 hb2 hb3 hb4 hne
    simp only [cgsGet, hcast]
    have h0 : |(0 : ℤ)| ≤ L - 1 := by simp; omega
    have := inv l1 0 l2 0 0 0 hb1 hb2 hb3 hb4 (by omega) (by omega) h0 h0 h0
      (by
        rintro ⟨t1, -, -, -, -, -⟩
        rw [abs_le] at t1
        omega)
    simpa using this

theorem cg_matrix_selection_rules_witness :
    (2 : ℤ) ≤ 2 ∧
    (∃ T : CgTab, cg_matrix 2 = Except.ok T ∧
      (∀ l1 m1 l2 m2 l m : ℤ,
        0 ≤ l1 → l1 < 2 → 0 ≤ l2 → l2 < 2 → 0 ≤ l → l < 2 →
        |m1| ≤ 2 - 1 → |m2| ≤ 2 - 1 → |m| ≤ 2 - 1 →
        ¬ validCG l1 m1 l2 m2 l m →
        cgsGet T l1.toNat m1 l2.toNat m2 l.toNat m = 0) ∧
      (∀ l1 l2 : ℤ, 0 ≤ l1 → l1 < 2 → 0 ≤ l2 → l2 < 2 → l1 ≠ l2 →
        cgsGet T l1.toNat 0 l2.toNat 0 0 0 = 0)) :=
  ⟨by decide, cg_matrix_selection_rules 2 (by decide)⟩

/-! The bispectrum reducer. -/

theorem except_bind_ok {α β : Type} (x : α) (f : α → Except String β) :
    (Except.ok x >>= f) = f x := rfl

theorem except_bind_err {α β : Type} (e : String) (f : α → Except String β) :
    ((Except.error e : Except String α) >>= f) = Except.error e := rfl

theorem bStep_skip {T : CgTab} {w : ℕ} {rows : List (List ℂ)} {acc : List (List ℝ)}
    {t : ℕ × ℕ × ℕ × ℕ} (h : blockNorm T t.2.1 t.2.2.1 t.2.2.2 < 1e-15) :
    bStep T w rows acc t = Except.ok acc := by
  rw [bStep, if_pos h]

theorem bStep_bad {T : CgTab} {w : ℕ} {rows : List (List ℂ)} {acc : List (List ℝ)}
    {t : ℕ × ℕ × ℕ × ℕ} (h1 : ¬ blockNorm T t.2.1 t.2.2.1 t.2.2.2 < 1e-15)
    (h2 : ∃ z ∈ bVecOf T w rows t, 1e-5 < |z.im|) :
    bStep T w rows acc t = Except.error "Not real" := by
  rw [bStep, if_neg h1, if_pos h2]

theorem bStep_app {T : CgTab} {w : ℕ} {rows : List (List ℂ)} {acc : List (List ℝ)}
    {t : ℕ × ℕ × ℕ × ℕ} (h1 : ¬ blockNorm T t.2.1 t.2.2.1 t.2.2.2 < 1e-15)
    (h2 : ¬ ∃ z ∈ bVecOf T w rows t, 1e-5 < |z.im|) :
    bStep T w rows acc t =
      Except.ok (acc ++ [(bVecOf T w rows t).map fun z => round5 z.re]) := by
  rw [bStep, if_neg h1, if_neg h2]

theorem bfold_err_iff (T : CgTab) (w : ℕ) (rows : List (List ℂ))
    (l : List (ℕ × ℕ × ℕ × ℕ)) :
    ∀ acc, (l.foldlM (bStep T w rows) acc = Except.error "Not real" ↔
      ∃ t ∈ l, ¬ blockNorm T t.2.1 t.2.2.1 t.2.2.2 < 1e-15 ∧
        ∃ z ∈ bVecOf T w rows t, 1e-5 < |z.im|) := by
  induction l with
  | nil =>
    intro acc
    simp only [List.foldlM_nil, List.not_mem_nil, false_and, exists_false, iff_false]
    exact fun h => Except.noConfusion h
  | cons a l ih =>
    intro acc
    rw [List.foldlM_cons]
    by_cases h1 : blockNorm T a.2.1 a.2.2.1 a.2.2.2 < 1e-15
    · rw [bStep_skip h1, except_bind_ok, ih]
      constructor
      · rintro ⟨t, ht, h⟩
        exact ⟨t, List.mem_cons_of_mem a ht, h⟩
      · rintro ⟨t, ht, h⟩
        rcases List.mem_cons.1 ht with rfl | ht'
        · exact absurd h1 h.1
        · exact ⟨t, ht', h⟩
    · by_cases h2 : ∃ z ∈ bVecOf T w rows a, 1e-5 < |z.im|
      · rw [bStep_bad h1 h2, except_bind_err]
        simp only [true_iff, iff_true]
        exact ⟨a, List.mem_cons_self a l, h1, h2⟩
      · rw [bStep_app h1 h2, except_bind_ok, ih]
        constructor
        · rintro ⟨t, ht, h⟩
          exact ⟨t, List.mem_cons_of_mem a ht, h⟩
        · rintro ⟨t, ht, h⟩
          rcases List.mem_cons.1 ht with rfl | ht'
          · exact absurd h.2 h2
          · exact ⟨t, ht', h⟩

open Classical in
theorem bfold_ok (T : CgTab) (w : ℕ) (rows : List (List ℂ)) (l : List (ℕ × ℕ × ℕ × ℕ))
    (hall : ∀ t ∈ l, ¬ blockNorm T t.2.1 t.2.2.1 t.2.2.2 < 1e-15 →
      ¬ ∃ z ∈ bVecOf T w rows t, 1e-5 < |z.im|) :
    ∀ acc, l.foldlM (bStep T w rows) acc = Except.ok (acc ++
      (l.filter fun t => decide (¬ blockNorm T t.2.1 t.2.2.1 t.2.2.2 < 1e-15)).map
        fun t => (bVecOf T w rows t).map fun z => round5 z.re) := by
  induction l with
  | nil =>
    intro acc
    simp only [List.foldlM_nil, List.filter_nil, List.map_nil, List.append_nil]
    rfl
  | cons a l ih =>
    intro acc
    rw [List.foldlM_cons]
    by_cases h1 : blockNorm T a.2.1 a.2.2.1 a.2.2.2 < 1e-15
    · rw [bStep_skip h1, except_bind_ok, ih (fun t ht => hall t (List.mem_cons_of_mem a ht))]
      rw [List.filter_cons_of_neg (by simp [h1])]
    · rw [bStep_app h1 (hall a (List.mem_cons_self a l) h1), except_bind_ok,
        ih (fun t ht => hall t (List.mem_cons_of_mem a ht))]
      rw [List.filter_cons_of_pos (by simp [h1])]
      simp [List.append_assoc]

theorem bispectrum_unfold (c : PyArr) (n_l n : ℕ) (T : CgTab)
    (hdiv : c.trailing = n * (c.trailing / n)) :
    BispectrumSymmetrizer.symmetrize_function c n_l n (some T) =
      ((bTriples n n_l).foldlM (bStep T (c.trailing / n) c.rows) []) >>= fun bvecs =>
        Except.ok ⟨c.shape.dropLast ++ [n * n_l + bvecs.length],
          List.zipWith (· ++ ·) (CasimirSymmetrizer.symmetrize_function c n_l n).rows
            (transposeAt bvecs c.rows.length)⟩ := by
  unfold BispectrumSymmetrizer.symmetrize_function
  rw [if_neg (fun hne => hne hdiv)]
  rfl

open Classical in
/-- C4: with a supplied CG table (as the class pipeline supplies it) and a
well-formed input, the bispectrum reducer raises if and only if some computed
triple-coupling vector `b` (the skipped near-zero-CG-block triples are never
computed) has a sample with `|imag| > 1e-5`, and the error is
`Exception('Not real')`; when no violation occurs the output appends, after the
Casimir block, exactly the real parts rounded to 5 decimals of the computed
`b` vectors, in loop order. -/
theorem bispectrum_real_check (c : PyArr) (n_l n : ℕ) (T : CgTab)
    (hn : 1 ≤ n) (_hnl : 1 ≤ n_l) (_hTnl : n_l ≤ T.nl)
    (htrail : c.trailing = basisSize n_l n) :
    (BispectrumSymmetrizer.symmetrize_function c n_l n (some T) = Except.error "Not real" ↔
      ∃ t ∈ bTriples n n_l, ¬ blockNorm T t.2.1 t.2.2.1 t.2.2.2 < 1e-15 ∧
        ∃ z ∈ bVecOf T (sizePer n_l) c.rows t, 1e-5 < |z.im|) ∧
    ((¬ ∃ t ∈ bTriples n n_l, ¬ blockNorm T t.2.1 t.2.2.1 t.2.2.2 < 1e-15 ∧
        ∃ z ∈ bVecOf T (sizePer n_l) c.rows t, 1e-5 < |z.im|) →
      BispectrumSymmetrizer.symmetrize_function c n_l n (some T) = Except.ok
        ⟨c.shape.dropLast ++ [n * n_l + ((bTriples n n_l).filter fun t =>
            decide (¬ blockNorm T t.2.1 t.2.2.1 t.2.2.2 < 1e-15)).length],
          List.zipWith (· ++ ·) (CasimirSymmetrizer.symmetrize_function c n_l n).rows
            (transposeAt (((bTriples n n_l).filter fun t =>
                decide (¬ blockNorm T t.2.1 t.2.2.1 t.2.2.2 < 1e-15)).map
                  fun t => (bVecOf T (sizePer n_l) c.rows t).map fun z => round5 z.re)
              c.rows.length)⟩) := by
  have hw : c.trailing / n = sizePer n_l := by
    rw [htrail]
    exact Nat.mul_div_cancel_left _ (by omega)
  have hdiv : c.trailing = n * (c.trailing / n) := by
    rw [hw, htrail]; rfl
  rw [bispectrum_unfold c n_l n T hdiv, hw]
  constructor
  · by_cases hbad : ∃ t ∈ bTriples n n_l, ¬ blockNorm T t.2.1 t.2.2.1 t.2.2.2 < 1e-15 ∧
        ∃ z ∈ bVecOf T (sizePer n_l) c.rows t, 1e-5 < |z.im|
    · rw [(bfold_err_iff T (sizePer n_l) c.rows (bTriples n n_l) []).2 hbad, except_bind_err]
      simp only [iff_true_intro hbad]
    · have hall : ∀ t ∈ bTriples n n_l, ¬ blockNorm T t.2.1 t.2.2.1 t.2.2.2 < 1e-15 →
          ¬ ∃ z ∈ bVecOf T (sizePer n_l) c.rows t, 1e-5 < |z.im| :=
        fun t ht h1 hex => hbad ⟨t, ht, h1, hex⟩
      rw [bfold_ok T (sizePer n_l) c.rows (bTriples n n_l) hall [], except_bind_ok]
      constructor
      · intro h
        exact Except.noConfusion h
      · intro h
        exact absurd h hbad
  · intro hnex
    have hall : ∀ t ∈ bTriples n n_l, ¬ blockNorm T t.2.1 t.2.2.1 t.2.2.2 < 1e-15 →
        ¬ ∃ z ∈ bVecOf T (sizePer n_l) c.rows t, 1e-5 < |z.im| :=
      fun t ht h1 hex => hnex ⟨t, ht, h1, hex⟩
    rw [bfold_ok T (sizePer n_l) c.rows (bTriples n n_l) hall [], except_bind_ok]
    simp [List.length_map]

theorem bispectrum_real_check_witness :
    ((1 : ℕ) ≤ 1 ∧ (1 : ℕ) ≤ CgTab.nl ⟨1, fun _ => 1⟩ ∧
      PyArr.trailing ⟨[1, 1], [[(2 : ℂ)]]⟩ = basisSize 1 1) ∧
    (BispectrumSymmetrizer.symmetrize_function ⟨[1, 1], [[(2 : ℂ)]]⟩ 1 1
        (some ⟨1, fun _ => 1⟩) = Except.error "Not real" ↔
      ∃ t ∈ bTriples 1 1, ¬ blockNorm ⟨1, fun _ => 1⟩ t.2.1 t.2.2.1 t.2.2.2 < 1e-15 ∧
        ∃ z ∈ bVecOf ⟨1, fun _ => 1⟩ (sizePer 1) [[(2 : ℂ)]] t, 1e-5 < |z.im|) :=
  ⟨⟨by decide, by decide, by decide⟩,
    (bispectrum_real_check ⟨[1, 1], [[(2 : ℂ)]]⟩ 1 1 ⟨1, fun _ => 1⟩
      (by decide) (by decide) (by decide) (by decide)).1⟩

theorem blockNorm_triv : blockNorm ⟨1, fun _ => 1⟩ 0 0 0 = 1 := by
  simp only [blockNorm]
  norm_num

theorem bVal_triv : bVal ⟨1, fun _ => 1⟩ 1 [(2 : ℂ)] 0 0 0 0 = 8 := by
  simp only [bVal, Nat.cast_zero, neg_zero, Finset.Icc_self, Finset.sum_singleton]
  simp [cVal, cgsGet, startIdx]
  rw [show ((2 : ℂ) = ((2 : ℝ) : ℂ)) from by norm_num, Complex.conj_ofReal]
  norm_num

theorem round5_eight : round5 8 = 8 := by
  have h8 : (8 : ℝ) * 100000 = ((800000 : ℤ) : ℝ) := by norm_num
  simp only [round5, roundHalfEven, h8, Int.fract_intCast, round_intCast]
  rw [if_neg (by norm_num : ¬ (0 : ℝ) = 1 / 2)]
  norm_num

/-- C1 (code bug): in the L=1, N=1 end-to-end scenario with input value 2.0
the Casimir reducer returns [4.0]; the bispectrum reducer, instead of
returning [4.0, 8.0], fails while building its CG table — `cg_matrix(1)`
indexes the size-1 magnetic axes at ±1 — so an IndexError propagates (the
same call also aborts `BispectrumSymmetrizer.__init__`).  With a correct
externally built one-entry table (⟨0 0; 0 0|0 0⟩ = 1) the reducer returns
[4.0, 8.0], exactly as the spec states. -/
theorem casimir_bispectrum_L1_scenario :
    CasimirSymmetrizer.symmetrize_function ⟨[1, 1], [[(2 : ℂ)]]⟩ 1 1 =
      { shape := [1, 1], rows := [[4]] } ∧
    BispectrumSymmetrizer.symmetrize_function ⟨[1, 1], [[(2 : ℂ)]]⟩ 1 1 none =
      Except.error "IndexError" ∧
    BispectrumSymmetrizer.symmetrize_function ⟨[1, 1], [[(2 : ℂ)]]⟩ 1 1
        (some ⟨1, fun _ => 1⟩) = Except.ok { shape := [1, 2], rows := [[4, 8]] } := by
  have hcas : CasimirSymmetrizer.symmetrize_function ⟨[1, 1], [[(2 : ℂ)]]⟩ 1 1 =
      { shape := [1, 1], rows := [[4]] } := by
    simp [CasimirSymmetrizer.symmetrize_function, casimirRow_two]
  refine ⟨hcas, ?_, ?_⟩
  · unfold BispectrumSymmetrizer.symmetrize_function
    rw [if_neg (by decide)]
    show (cg_matrix ((1 : ℕ) : ℤ) >>= _) = _
    rw [Nat.cast_one, cg_matrix_one_err, except_bind_err]
  · have hbn : ¬ blockNorm ⟨1, fun _ => 1⟩ 0 0 0 < 1e-15 := by
      rw [blockNorm_triv]; norm_num
    have hvec : bVecOf ⟨1, fun _ => 1⟩ 1 [[(2 : ℂ)]] (0, 0, 0, 0) = [8] := by
      simp [bVecOf]
      exact bVal_triv
    have hnr : ¬ ∃ z ∈ bVecOf ⟨1, fun _ => 1⟩ 1 [[(2 : ℂ)]] (0, 0, 0, 0), 1e-5 < |z.im| := by
      rw [hvec]
      rintro ⟨z, hz, habs⟩
      rw [List.mem_singleton] at hz
      subst hz
      norm_num at habs
    have ht : PyArr.trailing ⟨[1, 1], [[(2 : ℂ)]]⟩ / 1 = 1 := by decide
    rw [bispectrum_unfold _ 1 1 _ (by decide), ht,
      show bTriples 1 1 = [(0, 0, 0, 0)] from by decide]
    simp only [List.foldlM_cons, List.foldlM_nil, bStep_app hbn hnr, except_bind_ok, pure_bind]
    rw [hvec, hcas]
    simp only [List.map_cons, List.map_nil, List.nil_append, Complex.re_ofNat, round5_eight]
    simp [transposeAt, List.range_succ]

/-! The dispatcher, the pipeline adapter and the factory. -/

theorem mapM_ok_of_all {α β : Type} (g : α → Except String β) :
    ∀ (l : List α), (∀ a ∈ l, ∃ b, g a = Except.ok b) →
      ∃ r, l.mapM g = Except.ok r := by
  intro l
  induction l with
  | nil => intro _; exact ⟨[], rfl⟩
  | cons a l ih =>
    intro h
    obtain ⟨b, hb⟩ := h a (List.mem_cons_self a l)
    obtain ⟨r, hr⟩ := ih fun x hx => h x (List.mem_cons_of_mem a hx)
    refine ⟨b :: r, ?_⟩
    rw [List.mapM_cons, hb, except_bind_ok, hr, except_bind_ok]
    rfl

theorem mapM_ok_forall₂ {α β : Type} (g : α → Except String β) :
    ∀ (l : List α) (r : List β), l.mapM g = Except.ok r →
      List.Forall₂ (fun a b => g a = Except.ok b) l r := by
  intro l
  induction l with
  | nil =>
    intro r h
    have h' : Except.ok ([] : List β) = Except.ok r := h
    injection h' with h''
    subst h''
    exact List.Forall₂.nil
  | cons a l ih =>
    intro r h
    rw [List.mapM_cons] at h
    cases hga : g a with
    | error e => rw [hga, except_bind_err] at h; exact Except.noConfusion h
    | ok b =>
      rw [hga, except_bind_ok] at h
      cases hml : l.mapM g with
      | error e => rw [hml, except_bind_err] at h; exact Except.noConfusion h
      | ok bs =>
        rw [hml, except_bind_ok] at h
        have h' : Except.ok (b :: bs) = Except.ok r := h
        injection h' with h''
        subst h''
        exact List.Forall₂.cons hga (ih bs hml)

theorem symDictEntry_ok {f : PyArr → ℕ → ℕ → Option CgTab → Except String PyArrR}
    {basis : List (String × ℕ × ℕ)} {cgs : Option CgTab} {kv : String × PyArr}
    {rkv : String × PyArrR} (h : symDictEntry f basis cgs kv = Except.ok rkv) :
    rkv.1 = kv.1 ∧ ∃ ln, dictGet basis kv.1 = some ln ∧
      f kv.2 ln.1 ln.2 cgs = Except.ok rkv.2 := by
  unfold symDictEntry at h
  split at h
  next => exact Except.noConfusion h
  next ln hd =>
    cases hf : f kv.2 ln.1 ln.2 cgs with
    | error e => rw [hf] at h; exact Except.noConfusion h
    | ok r =>
      rw [hf] at h
      have h' : Except.ok (kv.1, r) = Except.ok rkv := h
      injection h' with h''
      subst h''
      exact ⟨rfl, ln, hd, by rw [hf]⟩

theorem forall₂_fst_eq {κ α β : Type} {P : κ × α → κ × β → Prop}
    {d : List (κ × α)} {rd : List (κ × β)}
    (h : List.Forall₂ (fun kv rkv => rkv.1 = kv.1 ∧ P kv rkv) d rd) :
    rd.map Prod.fst = d.map Prod.fst := by
  induction h with
  | nil => rfl
  | cons h1 _ ih => simp [ih, h1.1]

/-- C6: on a list of k species-to-tensor mappings `get_symmetrized` returns a
list of exactly k mappings in the same order; the i-th result has the keys of
the i-th input and each value is the configured reducer applied to that
species' tensor, exactly as in the single-mapping case (a single mapping in
gives a single mapping out). -/
theorem get_symmetrized_batch (f : PyArr → ℕ → ℕ → Option CgTab → Except String PyArrR)
    (basis : List (String × ℕ × ℕ)) (cgs : Option CgTab)
    (ds : List (List (String × PyArr)))
    (h : ∀ d ∈ ds, ∃ rd, symDict f basis cgs d = Except.ok rd) :
    ∃ rds, Symmetrizer.get_symmetrized f basis cgs (CIn.many ds) =
        Except.ok (COut.many rds) ∧
      rds.length = ds.length ∧
      List.Forall₂ (fun d rd =>
        Symmetrizer.get_symmetrized f basis cgs (CIn.one d) = Except.ok (COut.one rd) ∧
        rd.map Prod.fst = d.map Prod.fst ∧
        List.Forall₂ (fun kv rkv => rkv.1 = kv.1 ∧
          ∃ ln, dictGet basis kv.1 = some ln ∧
            f kv.2 ln.1 ln.2 cgs = Except.ok rkv.2) d rd) ds rds := by
  obtain ⟨rds, hrds⟩ := mapM_ok_of_all _ ds h
  refine ⟨rds, ?_, ?_, ?_⟩
  · rw [show Symmetrizer.get_symmetrized f basis cgs (CIn.many ds) =
        (ds.mapM (symDict f basis cgs)).map COut.many from rfl, hrds]
    rfl
  · exact (mapM_ok_forall₂ _ ds rds hrds).length_eq.symm
  · refine (mapM_ok_forall₂ _ ds rds hrds).imp ?_
    intro d rd hd
    have h3 := mapM_ok_forall₂ _ d rd hd
    refine ⟨?_, ?_, ?_⟩
    · rw [show Symmetrizer.get_symmetrized f basis cgs (CIn.one d) =
          (symDict f basis cgs d).map COut.one from rfl,
        show symDict f basis cgs d = Except.ok rd from hd]
      rfl
    · exact forall₂_fst_eq (h3.imp fun kv rkv hk => symDictEntry_ok hk)
    · exact h3.imp fun kv rkv hk => symDictEntry_ok hk

theorem get_symmetrized_batch_witness :
    (∀ d ∈ [[("H", PyArr.mk [1, 1] [[(2 : ℂ)]])]], ∃ rd,
      symDict casimirF [("H", (1, 1))] none d = Except.ok rd) ∧
    (∃ rds, Symmetrizer.get_symmetrized casimirF [("H", (1, 1))] none
        (CIn.many [[("H", PyArr.mk [1, 1] [[(2 : ℂ)]])]]) = Except.ok (COut.many rds) ∧
      rds.length = [[("H", PyArr.mk [1, 1] [[(2 : ℂ)]])]].length ∧
      List.Forall₂ (fun d rd =>
        Symmetrizer.get_symmetrized casimirF [("H", (1, 1))] none (CIn.one d) =
          Except.ok (COut.one rd) ∧
        rd.map Prod.fst = d.map Prod.fst ∧
        List.Forall₂ (fun kv rkv => rkv.1 = kv.1 ∧
          ∃ ln, dictGet [("H", (1, 1))] kv.1 = some ln ∧
            casimirF kv.2 ln.1 ln.2 none = Except.ok rkv.2) d rd)
        [[("H", PyArr.mk [1, 1] [[(2 : ℂ)]])]] rds) :=
  have hp : ∀ d ∈ [[("H", PyArr.mk [1, 1] [[(2 : ℂ)]])]], ∃ rd,
      symDict casimirF [("H", (1, 1))] none d = Except.ok rd := by
    intro d hd
    rw [List.mem_singleton] at hd
    subst hd
    exact ⟨_, rfl⟩
  ⟨hp, get_symmetrized_batch casimirF [("H", (1, 1))] none _ hp⟩

/-- C10: when `transform` receives a tuple `(X, y)` it returns the pair of the
symmetrized `X` and the unchanged `y`; on a non-tuple input it returns exactly
the symmetrized result. -/
theorem transform_tuple_passthrough
    (f : PyArr → ℕ → ℕ → Option CgTab → Except String PyArrR)
    (basis : List (String × ℕ × ℕ)) (cgs : Option CgTab) {α : Type} (X : CIn) (y : α)
    (r : COut) (h : Symmetrizer.get_symmetrized f basis cgs X = Except.ok r) :
    Symmetrizer.transform f basis cgs (TransIn.tup X y) = Except.ok (TransOut.tup r y) ∧
    Symmetrizer.transform f basis cgs (TransIn.plain X : TransIn α) =
      Except.ok (TransOut.plain r) := by
  constructor
  · rw [show Symmetrizer.transform f basis cgs (TransIn.tup X y) =
        (Symmetrizer.get_symmetrized f basis cgs X).map (fun d => TransOut.tup d y)
        from rfl, h]
    rfl
  · rw [show Symmetrizer.transform f basis cgs (TransIn.plain X : TransIn α) =
        (Symmetrizer.get_symmetrized f basis cgs X).map TransOut.plain from rfl, h]
    rfl

theorem transform_tuple_passthrough_witness :
    Symmetrizer.get_symmetrized casimirF [("H", (1, 1))] none
        (CIn.one [("H", PyArr.mk [1, 1] [[(2 : ℂ)]])]) =
      Except.ok (COut.one [("H",
        CasimirSymmetrizer.symmetrize_function (PyArr.mk [1, 1] [[(2 : ℂ)]]) 1 1)]) ∧
    (Symmetrizer.transform casimirF [("H", (1, 1))] none
        (TransIn.tup (CIn.one [("H", PyArr.mk [1, 1] [[(2 : ℂ)]])]) (37 : ℕ)) =
      Except.ok (TransOut.tup (COut.one [("H",
        CasimirSymmetrizer.symmetrize_function (PyArr.mk [1, 1] [[(2 : ℂ)]]) 1 1)]) 37) ∧
    Symmetrizer.transform casimirF [("H", (1, 1))] none
        (TransIn.plain (CIn.one [("H", PyArr.mk [1, 1] [[(2 : ℂ)]])]) : TransIn ℕ) =
      Except.ok (TransOut.plain (COut.one [("H",
        CasimirSymmetrizer.symmetrize_function (PyArr.mk [1, 1] [[(2 : ℂ)]]) 1 1)]))) :=
  ⟨rfl, transform_tuple_passthrough casimirF [("H", (1, 1))] none _ 37 _ rfl⟩

/-- C7: the factory errors when the selector key is missing and when the
lowercased selector value is not a registered name; names are matched
case-insensitively (Python `.lower()`), so any casing of "casimir" selects the
Casimir class (whose construction succeeds immediately) and any casing of
"bispectrum" resolves in `symmetrizer_dict` to the Bispectrum class, whose
constructor is then invoked. -/
theorem factory_selection (ins : SymIns) :
    (ins.symmetrizer_type = none →
      symmetrizer_factory ins =
        Except.error "symmetrize_instructions must contain symmetrizer_type key") ∧
    (∀ s, ins.symmetrizer_type = some s →
      ((pyLower s ≠ "casimir" → pyLower s ≠ "bispectrum" →
          symmetrizer_factory ins = Except.error "KeyError") ∧
       (pyLower s = "casimir" →
          selectClass (pyLower s) = some SymClass.casimir ∧
          symmetrizer_factory ins = Except.ok (SymInstance.casimir ins)) ∧
       (pyLower s = "bispectrum" →
          selectClass (pyLower s) = some SymClass.bispectrum ∧
          symmetrizer_factory ins = bispectrumInit ins))) := by
  obtain ⟨st, b⟩ := ins
  constructor
  · intro h
    have h' : st = none := h
    subst h'
    rfl
  · intro s hs
    have hs' : st = some s := hs
    subst hs'
    refine ⟨?_, ?_, ?_⟩
    · intro h1 h2
      have hsel : selectClass (pyLower s) = none := by
        unfold selectClass
        rw [if_neg h1, if_neg h2]
      simp only [symmetrizer_factory]
      rw [hsel]
    · intro h
      have hsel : selectClass (pyLower s) = some SymClass.casimir := by
        unfold selectClass
        rw [if_pos h]
      refine ⟨hsel, ?_⟩
      simp only [symmetrizer_factory]
      rw [hsel]
    · intro h
      have hsel : selectClass (pyLower s) = some SymClass.bispectrum := by
        unfold selectClass
        rw [if_neg (by rw [h]; decide), if_pos h]
      refine ⟨hsel, ?_⟩
      simp only [symmetrizer_factory]
      rw [hsel]

theorem factory_selection_witness :
    SymIns.symmetrizer_type ⟨some "CaSiMiR", none⟩ = some "CaSiMiR" ∧
    pyLower "CaSiMiR" = "casimir" ∧
    symmetrizer_factory ⟨some "CaSiMiR", none⟩ =
      Except.ok (SymInstance.casimir ⟨some "CaSiMiR", none⟩) :=
  have hl : pyLower "CaSiMiR" = "casimir" := by decide
  ⟨rfl, hl, (((factory_selection ⟨some "CaSiMiR", none⟩).2 "CaSiMiR" rfl).2.1 hl).2⟩
